import Mathlib

/-!
Shallow embedding of `cbf.py` (class `CountingBloomFilter`) and proofs about
its operations.

Modelling conventions:
* Python strings are lists of character codes (`ord` values), so `item : List ℕ`.
* Python `int` is `ℤ`; the hash table (a Python list of ints) is `List ℤ`.
* Operations that can raise in Python return `Option`: `% 0` raises
  `ZeroDivisionError`, out-of-range list indexing raises `IndexError`, and
  `int(x)` raises when `x` is `inf`/`nan` (which `np.log2` produces on
  non-positive input).
* Float arithmetic in the constructor is modelled by exact real arithmetic;
  every concrete value proved about it is far from a rounding boundary.
-/

/-- Python `a % b`: floor modulus (sign of the divisor); `b = 0` raises. -/
def pymod (a b : ℤ) : Option ℤ :=
  if b = 0 then none else some (Int.fmod a b)

/-- Python list read `l[i]`: a negative index wraps once from the end;
an index outside `[-len, len)` raises. -/
def pyget (l : List ℤ) (i : ℤ) : Option ℤ :=
  if 0 ≤ i then
    (if i < (l.length : ℤ) then some (l.getD i.toNat 0) else none)
  else if 0 ≤ (l.length : ℤ) + i then
    some (l.getD ((l.length : ℤ) + i).toNat 0)
  else none

/-- Python list write `l[i] = v`, with the same index semantics as `pyget`. -/
def pyset (l : List ℤ) (i : ℤ) (v : ℤ) : Option (List ℤ) :=
  if 0 ≤ i then
    (if i < (l.length : ℤ) then some (l.set i.toNat v) else none)
  else if 0 ≤ (l.length : ℤ) + i then
    some (l.set ((l.length : ℤ) + i).toNat v)
  else none

/-- Python `int(x)` on a finite float: truncation toward zero. -/
noncomputable def pyint (x : ℝ) : ℤ :=
  if 0 ≤ x then ⌊x⌋ else ⌈x⌉

/-- Python / numpy `round(x)`: nearest integer, ties to the even integer. -/
noncomputable def pyround (x : ℝ) : ℤ :=
  if Int.fract x < 1 / 2 then ⌊x⌋
  else if 1 / 2 < Int.fract x then ⌊x⌋ + 1
  else if Even ⌊x⌋ then ⌊x⌋ else ⌊x⌋ + 1

/-- Number of occurrences of `j` in a list of integers. -/
def countZ (j : ℤ) : List ℤ → ℕ
  | [] => 0
  | h :: t => countZ j t + (if h = j then 1 else 0)

/-- Operational state of a `CountingBloomFilter` object: the fields
`memory_size`, `num_hash_functions`, `hash_table`, `num_items` of `cbf.py`.
The stored `self.fpr` is kept separately by `init`, since it is written once
and never read by any operation. -/
structure CountingBloomFilter where
  memory_size : ℤ
  num_hash_functions : ℤ
  hash_table : List ℤ
  num_items : ℤ
deriving DecidableEq

/-- State right after construction with memory size `m` and `k` hash
functions: `hash_table = [0] * m` and `num_items = 0`. -/
def freshCBF (m k : ℤ) : CountingBloomFilter :=
  ⟨m, k, List.replicate m.toNat 0, 0⟩

/-- Constructor `CountingBloomFilter.__init__`.  For `fpr ≤ 0`, `np.log2 fpr`
is `-inf` or `nan` and the `int(...)` around the sizing formula raises, so
construction fails (`none`); note the code computes `memory_size` and the
default hash count from the raw `fpr` argument, not from the coerced
`self.fpr`.  On success the result is the stored `self.fpr` (equal to `fpr`
here, since `fpr > 0`) paired with the operational state. -/
noncomputable def init (num_items : ℤ) (fpr : ℝ) (num_hash_functions : ℤ) :
    Option (ℝ × CountingBloomFilter) :=
  if fpr ≤ 0 then none
  else
    let msize : ℤ := pyint ((num_items : ℝ) * (-1.44 * Real.logb 2 fpr))
    let k : ℤ :=
      if num_hash_functions = 0 then
        (if 0 < pyint (-Real.logb 2 fpr) then pyround (-Real.logb 2 fpr) else 1)
      else num_hash_functions
    some (fpr, freshCBF msize k)

namespace CountingBloomFilter

/-- Loop of `str_to_int`: left-to-right over the characters, at position `p`
with code `c` the accumulator becomes `(acc + (c * d^p)^2) % m`. -/
def strToIntAux (m d : ℤ) : List ℕ → ℕ → ℤ → Option ℤ
  | [], _, acc => some acc
  | c :: rest, p, acc =>
    match pymod (acc + ((c : ℤ) * d ^ p) ^ 2) m with
    | none => none
    | some acc2 => strToIntAux m d rest (p + 1) acc2

/-- Method `str_to_int(item, i)`: radix `d = 2^(i+1)`, accumulator starts
at `0`. -/
def str_to_int (s : CountingBloomFilter) (item : List ℕ) (i : ℕ) : Option ℤ :=
  strToIntAux s.memory_size (2 ^ (i + 1)) item 0 0

/-- Loop of `hash_cbf` over the hash-function indices. -/
def hashLoop (m : ℤ) (item : List ℕ) : List ℕ → Option (List ℤ)
  | [] => some []
  | i :: rest =>
    match strToIntAux m (2 ^ (i + 1)) item 0 0 with
    | none => none
    | some h =>
      match hashLoop m item rest with
      | none => none
      | some hs => some (h :: hs)

/-- Method `hash_cbf(item)`: the list `[str_to_int(item, i) for i in range(k)]`
(`range` of a non-positive `k` is empty). -/
def hash_cbf (s : CountingBloomFilter) (item : List ℕ) : Option (List ℤ) :=
  hashLoop s.memory_size item (List.range s.num_hash_functions.toNat)

/-- Loop of `search_hashes`: return `False` at the first counter equal to
zero, `True` if none is zero. -/
def searchHashesLoop (tbl : List ℤ) : List ℤ → Option Bool
  | [] => some true
  | h :: rest =>
    match pyget tbl h with
    | none => none
    | some v => if v = 0 then some false else searchHashesLoop tbl rest

/-- Method `search_hashes(hash_indices)`. -/
def search_hashes (s : CountingBloomFilter) (hash_indices : List ℤ) :
    Option Bool :=
  searchHashesLoop s.hash_table hash_indices

/-- Method `search(item)`. -/
def search (s : CountingBloomFilter) (item : List ℕ) : Option Bool :=
  match s.hash_cbf item with
  | none => none
  | some his => s.search_hashes his

/-- Loop `for hash_index in hash_indices: table[hash_index] += δ`
(`δ = 1` in `insert`, `δ = -1` in `delete`). -/
def bumpLoop (δ : ℤ) : List ℤ → List ℤ → Option (List ℤ)
  | tbl, [] => some tbl
  | tbl, h :: rest =>
    match pyget tbl h with
    | none => none
    | some v =>
      match pyset tbl h (v + δ) with
      | none => none
      | some tbl2 => bumpLoop δ tbl2 rest

/-- Method `insert(item)`: increment the counter at each hash index, then
increment `num_items`. -/
def insert (s : CountingBloomFilter) (item : List ℕ) :
    Option CountingBloomFilter :=
  match s.hash_cbf item with
  | none => none
  | some his =>
    match bumpLoop 1 s.hash_table his with
    | none => none
    | some tbl =>
      some { s with hash_table := tbl, num_items := s.num_items + 1 }

/-- Method `delete(item)`: decrement the counter at each hash index only if
`search_hashes` over those indices returns `True`; decrement `num_items`
unconditionally. -/
def delete (s : CountingBloomFilter) (item : List ℕ) :
    Option CountingBloomFilter :=
  match s.hash_cbf item with
  | none => none
  | some his =>
    match s.search_hashes his with
    | none => none
    | some b =>
      if b then
        match bumpLoop (-1) s.hash_table his with
        | none => none
        | some tbl =>
          some { s with hash_table := tbl, num_items := s.num_items - 1 }
      else some { s with num_items := s.num_items - 1 }

/-- Sequence of insertions, left to right. -/
def insertMany (s : CountingBloomFilter) :
    List (List ℕ) → Option CountingBloomFilter
  | [] => some s
  | x :: xs =>
    match s.insert x with
    | none => none
    | some s2 => insertMany s2 xs

/-- Total version of the `str_to_int` fold, exactly as §4.2 of the design
describes it: meaningful whenever `m ≥ 1` (where the code's `% m` cannot
raise). -/
def specFoldAux (m d : ℤ) : List ℕ → ℕ → ℤ → ℤ
  | [], _, acc => acc
  | c :: rest, p, acc =>
    specFoldAux m d rest (p + 1) (Int.fmod (acc + ((c : ℤ) * d ^ p) ^ 2) m)

/-- Hash value of one hash function per the design: fold with radix `d`,
accumulator starting at `0`. -/
def specHash (m d : ℤ) (item : List ℕ) : ℤ :=
  specFoldAux m d item 0 0

/-- States whose table really has `memory_size` slots, with at least one
slot.  Every state built by `init` with `fpr ∈ (0, 1)` and `num_items`
large enough satisfies this, and every operation preserves it. -/
def Valid (s : CountingBloomFilter) : Prop :=
  1 ≤ s.memory_size ∧ (s.hash_table.length : ℤ) = s.memory_size

instance (s : CountingBloomFilter) : Decidable (Valid s) := by
  unfold Valid; infer_instance

/-- Valid states with only non-negative counters (e.g. any state reached
from a fresh filter by insertions only). -/
def Good (s : CountingBloomFilter) : Prop :=
  Valid s ∧ ∀ v ∈ s.hash_table, 0 ≤ v

instance (s : CountingBloomFilter) : Decidable (Good s) := by
  unfold Good; infer_instance

/-- State `t` has the same configuration as `s` and pointwise no smaller
counters (the relation between any state and a later state reached from it
by insertions only). -/
def TableLE (s t : CountingBloomFilter) : Prop :=
  s.memory_size = t.memory_size ∧
  s.num_hash_functions = t.num_hash_functions ∧
  s.hash_table.length = t.hash_table.length ∧
  ∀ j : ℕ, s.hash_table.getD j 0 ≤ t.hash_table.getD j 0

end CountingBloomFilter

/-- Concrete fresh filter with `m = 7`, `k = 2` (produced, for example, by
`CountingBloomFilter(5, 0.5, 2)`). -/
def demo0 : CountingBloomFilter := freshCBF 7 2

/-- State of `demo0` after `insert("dc")` (character codes 100, 99). -/
def demo1 : CountingBloomFilter := ⟨7, 2, [0, 1, 0, 0, 0, 0, 1], 1⟩

/-- State of `demo1` after `delete("a")` (character code 97): slot 1 has
been decremented twice through one membership check. -/
def demo2 : CountingBloomFilter := ⟨7, 2, [0, -1, 0, 0, 0, 0, 1], 0⟩

/-! ### Auxiliary list lemmas -/

theorem getD_set_self (l : List ℤ) :
    ∀ (i : ℕ), i < l.length → ∀ v : ℤ, (l.set i v).getD i 0 = v := by
  induction l with
  | nil => intro i hi v; simp at hi
  | cons a t ih =>
    intro i hi v
    cases i with
    | zero => simp
    | succ n => simpa using ih n (by simpa using hi) v

theorem getD_set_ne (l : List ℤ) :
    ∀ (i j : ℕ), i ≠ j → ∀ v : ℤ, (l.set i v).getD j 0 = l.getD j 0 := by
  induction l with
  | nil => intro i j _ v; simp
  | cons a t ih =>
    intro i j hij v
    cases i with
    | zero =>
      cases j with
      | zero => exact absurd rfl hij
      | succ nj => simp
    | succ ni =>
      cases j with
      | zero => simp
      | succ nj => simpa using ih ni nj (by omega) v

theorem all_nonneg_of_getD (l : List ℤ)
    (h : ∀ j : ℕ, 0 ≤ l.getD j 0) : ∀ v ∈ l, 0 ≤ v := by
  induction l with
  | nil => intro v hv; simp at hv
  | cons a t ih =>
    intro v hv
    rcases List.mem_cons.mp hv with rfl | hv
    · simpa using h 0
    · exact ih (fun j => by simpa using h (j + 1)) v hv

theorem countZ_nil (j : ℤ) : countZ j [] = 0 := rfl

theorem countZ_cons (j a : ℤ) (l : List ℤ) :
    countZ j (a :: l) = countZ j l + (if a = j then 1 else 0) := rfl

theorem countZ_pos_of_mem (j : ℤ) (l : List ℤ) (h : j ∈ l) : 1 ≤ countZ j l := by
  induction l with
  | nil => simp at h
  | cons a t ih =>
    rw [countZ_cons]
    rcases List.mem_cons.mp h with rfl | h
    · rw [if_pos rfl]; omega
    · have := ih h; omega

/-! ### Python primitive lemmas -/

theorem pymod_of_pos (a b : ℤ) (hb : 0 < b) :
    pymod a b = some (Int.fmod a b) := by
  unfold pymod
  rw [if_neg (by omega)]

theorem fmod_range (a b : ℤ) (hb : 0 < b) :
    0 ≤ Int.fmod a b ∧ Int.fmod a b < b := by
  rw [Int.fmod_eq_emod a (le_of_lt hb)]
  exact ⟨Int.emod_nonneg a (by omega), Int.emod_lt_of_pos a hb⟩

theorem pyget_in (tbl : List ℤ) (h : ℤ) (h0 : 0 ≤ h)
    (h1 : h < (tbl.length : ℤ)) :
    pyget tbl h = some (tbl.getD h.toNat 0) := by
  unfold pyget
  rw [if_pos h0, if_pos h1]

theorem pyset_in (tbl : List ℤ) (h : ℤ) (v : ℤ) (h0 : 0 ≤ h)
    (h1 : h < (tbl.length : ℤ)) :
    pyset tbl h v = some (tbl.set h.toNat v) := by
  unfold pyset
  rw [if_pos h0, if_pos h1]

namespace CountingBloomFilter

/-! ### Hash-computation lemmas -/

theorem strToIntAux_eq_spec (m d : ℤ) (hm : 1 ≤ m) :
    ∀ (item : List ℕ) (p : ℕ) (acc : ℤ),
      strToIntAux m d item p acc = some (specFoldAux m d item p acc) := by
  intro item
  induction item with
  | nil => intro p acc; rfl
  | cons c rest ih =>
    intro p acc
    rw [strToIntAux, specFoldAux, pymod_of_pos _ _ (by omega)]
    exact ih _ _

theorem specFoldAux_range (m d : ℤ) (hm : 1 ≤ m) :
    ∀ (item : List ℕ) (p : ℕ) (acc : ℤ), 0 ≤ acc → acc < m →
      0 ≤ specFoldAux m d item p acc ∧ specFoldAux m d item p acc < m := by
  intro item
  induction item with
  | nil => intro p acc h0 h1; exact ⟨h0, h1⟩
  | cons c rest ih =>
    intro p acc h0 h1
    have hr := fmod_range (acc + ((c : ℤ) * d ^ p) ^ 2) m (by omega)
    exact ih _ _ hr.1 hr.2

theorem specHash_range (m d : ℤ) (hm : 1 ≤ m) (item : List ℕ) :
    0 ≤ specHash m d item ∧ specHash m d item < m :=
  specFoldAux_range m d hm item 0 0 le_rfl (by omega)

theorem hashLoop_eq (m : ℤ) (hm : 1 ≤ m) (item : List ℕ) :
    ∀ idxs : List ℕ, hashLoop m item idxs =
      some (idxs.map fun i => specHash m (2 ^ (i + 1)) item) := by
  intro idxs
  induction idxs with
  | nil => rfl
  | cons i rest ih =>
    rw [hashLoop, strToIntAux_eq_spec m _ hm, ih]
    rfl

theorem hash_cbf_eq (s : CountingBloomFilter) (hm : 1 ≤ s.memory_size)
    (item : List ℕ) :
    s.hash_cbf item = some ((List.range s.num_hash_functions.toNat).map
      fun i => specHash s.memory_size (2 ^ (i + 1)) item) :=
  hashLoop_eq s.memory_size hm item _

theorem hash_cbf_range (s : CountingBloomFilter) (hm : 1 ≤ s.memory_size)
    (item : List ℕ) (his : List ℤ) (hh : s.hash_cbf item = some his) :
    ∀ h ∈ his, 0 ≤ h ∧ h < s.memory_size := by
  rw [hash_cbf_eq s hm item] at hh
  cases hh
  intro h hmem
  rcases List.mem_map.mp hmem with ⟨i, _, rfl⟩
  exact specHash_range s.memory_size _ hm item

/-! ### search_hashes lemmas -/

theorem searchHashesLoop_spec (tbl : List ℤ) :
    ∀ his : List ℤ, (∀ h ∈ his, 0 ≤ h ∧ h < (tbl.length : ℤ)) →
      (searchHashesLoop tbl his = some true ↔
        ∀ h ∈ his, tbl.getD h.toNat 0 ≠ 0) ∧
      (searchHashesLoop tbl his = some true ∨
        searchHashesLoop tbl his = some false) := by
  intro his
  induction his with
  | nil => intro _; exact ⟨by simp [searchHashesLoop], Or.inl rfl⟩
  | cons h rest ih =>
    intro hv
    have hh := hv h (List.mem_cons_self h rest)
    have hrest := ih fun a ha => hv a (List.mem_cons_of_mem h ha)
    simp only [searchHashesLoop, pyget_in tbl h hh.1 hh.2]
    by_cases hz : tbl.getD h.toNat 0 = 0
    · rw [if_pos hz]
      refine ⟨⟨fun habs => by simp at habs, fun hall => absurd hz (hall h (List.mem_cons_self h rest))⟩, Or.inr rfl⟩
    · rw [if_neg hz]
      refine ⟨⟨fun ht a ha => ?_, fun hall => hrest.1.mpr fun a ha => hall a (List.mem_cons_of_mem h ha)⟩, hrest.2⟩
      rcases List.mem_cons.mp ha with rfl | ha
      · exact hz
      · exact (hrest.1.mp ht) a ha

/-! ### bumpLoop lemma -/

theorem bumpLoop_spec (δ : ℤ) :
    ∀ (his tbl : List ℤ), (∀ h ∈ his, 0 ≤ h ∧ h < (tbl.length : ℤ)) →
      ∃ tbl2, bumpLoop δ tbl his = some tbl2 ∧ tbl2.length = tbl.length ∧
        ∀ j : ℕ, tbl2.getD j 0 = tbl.getD j 0 + δ * countZ (j : ℤ) his := by
  intro his
  induction his with
  | nil =>
    intro tbl _
    exact ⟨tbl, rfl, rfl, fun j => by simp [countZ]⟩
  | cons h rest ih =>
    intro tbl hv
    have hh := hv h (List.mem_cons_self h rest)
    have hlt : h.toNat < tbl.length := by omega
    set v := tbl.getD h.toNat 0 with hvdef
    simp only [bumpLoop, pyget_in tbl h hh.1 hh.2, pyset_in tbl h (v + δ) hh.1 hh.2]
    have hv2 : ∀ a ∈ rest, 0 ≤ a ∧ a < ((tbl.set h.toNat (v + δ)).length : ℤ) := by
      intro a ha
      have := hv a (List.mem_cons_of_mem h ha)
      simpa using this
    rcases ih (tbl.set h.toNat (v + δ)) hv2 with ⟨tbl2, hrun, hlen, hval⟩
    refine ⟨tbl2, hrun, by simpa using hlen, fun j => ?_⟩
    by_cases hj : h.toNat = j
    · subst hj
      have hcast : ((h.toNat : ℕ) : ℤ) = h := by omega
      have hc : countZ ((h.toNat : ℕ) : ℤ) (h :: rest) =
          countZ ((h.toNat : ℕ) : ℤ) rest + 1 := by
        rw [countZ_cons, if_pos hcast.symm]
      rw [hval h.toNat, getD_set_self tbl h.toNat hlt (v + δ), hc]
      push_cast
      ring
    · have hne : h ≠ (j : ℤ) := by omega
      have hc : countZ (j : ℤ) (h :: rest) = countZ (j : ℤ) rest := by
        rw [countZ_cons, if_neg hne]
        omega
      rw [hval j, getD_set_ne tbl h.toNat j hj (v + δ), hc]

end CountingBloomFilter

theorem getD_nonneg_of_all (l : List ℤ) (h : ∀ v ∈ l, 0 ≤ v) :
    ∀ j : ℕ, 0 ≤ l.getD j 0 := by
  induction l with
  | nil => intro j; simp
  | cons a t ih =>
    intro j
    cases j with
    | zero => simpa using h a (List.mem_cons_self a t)
    | succ n => simpa using ih (fun v hv => h v (List.mem_cons_of_mem a hv)) n

namespace CountingBloomFilter

/-! ### Operation-level lemmas -/

theorem insert_spec (s : CountingBloomFilter) (x : List ℕ) (hv : Valid s) :
    ∃ (s2 : CountingBloomFilter) (his : List ℤ),
      s.hash_cbf x = some his ∧ s.insert x = some s2 ∧
      s2.memory_size = s.memory_size ∧
      s2.num_hash_functions = s.num_hash_functions ∧
      s2.num_items = s.num_items + 1 ∧
      s2.hash_table.length = s.hash_table.length ∧
      (∀ h ∈ his, 0 ≤ h ∧ h < s.memory_size) ∧
      ∀ j : ℕ, s2.hash_table.getD j 0 =
        s.hash_table.getD j 0 + countZ (j : ℤ) his := by
  obtain ⟨hm, hlen⟩ := hv
  have hh := hash_cbf_eq s hm x
  have hrange : ∀ h ∈ ((List.range s.num_hash_functions.toNat).map
      fun i => specHash s.memory_size (2 ^ (i + 1)) x), 0 ≤ h ∧ h < s.memory_size :=
    hash_cbf_range s hm x _ hh
  have hrange2 : ∀ h ∈ ((List.range s.num_hash_functions.toNat).map
      fun i => specHash s.memory_size (2 ^ (i + 1)) x),
      0 ≤ h ∧ h < (s.hash_table.length : ℤ) := by
    intro h hmem
    have := hrange h hmem
    omega
  rcases bumpLoop_spec 1 _ s.hash_table hrange2 with ⟨tbl2, hrun, hlen2, hval⟩
  refine ⟨{ s with hash_table := tbl2, num_items := s.num_items + 1 }, _,
    hh, ?_, rfl, rfl, rfl, hlen2, hrange, fun j => by simpa using hval j⟩
  simp only [insert, hh, hrun]

theorem delete_spec (s : CountingBloomFilter) (x : List ℕ) (hv : Valid s) :
    ∃ (s2 : CountingBloomFilter) (his : List ℤ) (b : Bool),
      s.hash_cbf x = some his ∧ s.search_hashes his = some b ∧
      s.delete x = some s2 ∧
      s2.memory_size = s.memory_size ∧
      s2.num_hash_functions = s.num_hash_functions ∧
      s2.num_items = s.num_items - 1 ∧
      (b = false → s2.hash_table = s.hash_table) ∧
      (b = true → s2.hash_table.length = s.hash_table.length ∧
        ∀ j : ℕ, s2.hash_table.getD j 0 =
          s.hash_table.getD j 0 - countZ (j : ℤ) his) := by
  obtain ⟨hm, hlen⟩ := hv
  have hh := hash_cbf_eq s hm x
  have hrange : ∀ h ∈ ((List.range s.num_hash_functions.toNat).map
      fun i => specHash s.memory_size (2 ^ (i + 1)) x), 0 ≤ h ∧ h < s.memory_size :=
    hash_cbf_range s hm x _ hh
  have hrange2 : ∀ h ∈ ((List.range s.num_hash_functions.toNat).map
      fun i => specHash s.memory_size (2 ^ (i + 1)) x),
      0 ≤ h ∧ h < (s.hash_table.length : ℤ) := by
    intro h hmem
    have := hrange h hmem
    omega
  rcases (searchHashesLoop_spec s.hash_table _ hrange2).2 with ht | hf
  · rcases bumpLoop_spec (-1) _ s.hash_table hrange2 with ⟨tbl2, hrun, hlen2, hval⟩
    refine ⟨{ s with hash_table := tbl2, num_items := s.num_items - 1 }, _, true,
      hh, ht, ?_, rfl, rfl, rfl, by simp, fun _ => ⟨hlen2, fun j => ?_⟩⟩
    · simp [delete, hh, search_hashes, ht, hrun]
    · dsimp only
      have := hval j
      omega
  · refine ⟨{ s with num_items := s.num_items - 1 }, _, false,
      hh, hf, ?_, rfl, rfl, rfl, fun _ => rfl, by simp⟩
    simp [delete, hh, search_hashes, hf]

theorem search_eq_loop (s : CountingBloomFilter) (x : List ℕ)
    (his : List ℤ) (hh : s.hash_cbf x = some his) :
    s.search x = searchHashesLoop s.hash_table his := by
  simp only [search, hh, search_hashes]

theorem fresh_good (m k : ℤ) (hm : 1 ≤ m) : Good (freshCBF m k) := by
  refine ⟨⟨hm, ?_⟩, ?_⟩
  · simp [freshCBF]
    omega
  · intro v hv
    simp [freshCBF] at hv
    omega

theorem tableLE_rfl (s : CountingBloomFilter) : TableLE s s :=
  ⟨rfl, rfl, rfl, fun _ => le_rfl⟩

theorem tableLE_trans {s t u : CountingBloomFilter}
    (h1 : TableLE s t) (h2 : TableLE t u) : TableLE s u :=
  ⟨h1.1.trans h2.1, h1.2.1.trans h2.2.1, h1.2.2.1.trans h2.2.2.1,
    fun j => (h1.2.2.2 j).trans (h2.2.2.2 j)⟩

theorem insert_good (s : CountingBloomFilter) (x : List ℕ) (hg : Good s) :
    ∃ s2, s.insert x = some s2 ∧ Good s2 ∧ TableLE s s2 ∧
      ∀ his, s.hash_cbf x = some his →
        ∀ h ∈ his, 1 ≤ s2.hash_table.getD h.toNat 0 := by
  obtain ⟨⟨hms, hlens⟩, hpos⟩ := hg
  rcases insert_spec s x ⟨hms, hlens⟩ with
    ⟨s2, his, hh, hins, hmem, hk, hn, hlen, hrange, hval⟩
  have hnn := getD_nonneg_of_all s.hash_table hpos
  refine ⟨s2, hins, ⟨⟨by omega, by omega⟩, ?_⟩, ⟨hmem.symm, hk.symm, hlen.symm,
    fun j => by have := hval j; omega⟩, fun his2 hh2 h hmemh => ?_⟩
  · refine all_nonneg_of_getD s2.hash_table fun j => ?_
    have := hval j
    have := hnn j
    omega
  · rw [hh] at hh2
    cases hh2
    have h0 : 0 ≤ h := (hrange h hmemh).1
    have hcast : ((h.toNat : ℕ) : ℤ) = h := by omega
    have hcount : 1 ≤ countZ ((h.toNat : ℕ) : ℤ) his := by
      rw [hcast]
      exact countZ_pos_of_mem h his hmemh
    have := hval h.toNat
    have := hnn h.toNat
    omega

theorem insertMany_good :
    ∀ (l : List (List ℕ)) (s : CountingBloomFilter), Good s →
      ∃ t, insertMany s l = some t ∧ Good t ∧ TableLE s t := by
  intro l
  induction l with
  | nil => intro s hg; exact ⟨s, rfl, hg, tableLE_rfl s⟩
  | cons x xs ih =>
    intro s hg
    rcases insert_good s x hg with ⟨s2, hins, hg2, hle, _⟩
    rcases ih s2 hg2 with ⟨t, hrun, hgt, hlet⟩
    exact ⟨t, by simp only [insertMany, hins, hrun], hgt, tableLE_trans hle hlet⟩

theorem insertMany_append (l1 l2 : List (List ℕ)) :
    ∀ s : CountingBloomFilter, insertMany s (l1 ++ l2) =
      (insertMany s l1).bind fun t => insertMany t l2 := by
  induction l1 with
  | nil => intro s; simp [insertMany]
  | cons x xs ih =>
    intro s
    simp only [List.cons_append, insertMany]
    cases h : s.insert x with
    | none => rfl
    | some s2 => exact ih s2

end CountingBloomFilter

/-! ### Real-arithmetic lemmas for the constructor -/

theorem le_logb2_of_pow_le (p q : ℕ) (x : ℝ) (hx : 0 < x) (hq : 0 < q)
    (h : (2 : ℝ) ^ p ≤ x ^ q) : (p : ℝ) / q ≤ Real.logb 2 x := by
  have h1 : Real.logb 2 ((2 : ℝ) ^ p) ≤ Real.logb 2 (x ^ q) :=
    (Real.logb_le_logb (by norm_num) (by positivity) (by positivity)).mpr h
  rw [Real.logb_pow, Real.logb_pow, Real.logb_self_eq_one (by norm_num),
    mul_one] at h1
  rw [div_le_iff₀ (by positivity)]
  nlinarith [h1]

theorem logb2_lt_of_pow_lt (p q : ℕ) (x : ℝ) (hx : 0 < x) (hq : 0 < q)
    (h : x ^ q < (2 : ℝ) ^ p) : Real.logb 2 x < (p : ℝ) / q := by
  have h1 : Real.logb 2 (x ^ q) < Real.logb 2 ((2 : ℝ) ^ p) :=
    (Real.logb_lt_logb_iff (by norm_num) (by positivity) (by positivity)).mpr h
  rw [Real.logb_pow, Real.logb_pow, Real.logb_self_eq_one (by norm_num),
    mul_one] at h1
  rw [lt_div_iff₀ (by positivity)]
  nlinarith [h1]

set_option maxHeartbeats 1000000 in
theorem logb50_lower : (8127 : ℝ) / 1440 ≤ Real.logb 2 50 := by
  refine le_logb2_of_pow_le 8127 1440 50 (by norm_num) (by norm_num) ?_
  have h : (2 : ℕ) ^ 8127 ≤ 50 ^ 1440 := by norm_num
  exact_mod_cast h

set_option maxHeartbeats 1000000 in
theorem logb50_upper : Real.logb 2 50 < (8128 : ℝ) / 1440 := by
  refine logb2_lt_of_pow_lt 8128 1440 50 (by norm_num) (by norm_num) ?_
  have h : (50 : ℕ) ^ 1440 < 2 ^ 8128 := by norm_num
  exact_mod_cast h

theorem pyint_of_nonneg (x : ℝ) (h : 0 ≤ x) : pyint x = ⌊x⌋ := if_pos h

theorem floor_logb50 : ⌊Real.logb 2 50⌋ = 5 := by
  have h1 := logb50_lower
  have h2 := logb50_upper
  rw [Int.floor_eq_iff]
  constructor
  · push_cast
    linarith
  · push_cast
    linarith

theorem pyround_logb50 : pyround (Real.logb 2 50) = 6 := by
  have h1 := logb50_lower
  have h2 := logb50_upper
  have hfr : Int.fract (Real.logb 2 50) = Real.logb 2 50 - 5 := by
    rw [← Int.self_sub_floor, floor_logb50]
    norm_num
  unfold pyround
  rw [hfr, if_neg (by linarith), if_pos (by linarith), floor_logb50]
  norm_num

theorem floor_1440_logb50 : ⌊(1440 : ℝ) * Real.logb 2 50⌋ = 8127 := by
  have h1 := logb50_lower
  have h2 := logb50_upper
  rw [Int.floor_eq_iff]
  constructor
  · push_cast
    linarith
  · push_cast
    linarith

theorem logb_half : Real.logb 2 (1 / 2 : ℝ) = -1 := by
  rw [one_div, Real.logb_inv, Real.logb_self_eq_one (by norm_num)]

theorem logb_inv50 : Real.logb 2 (1 / 50 : ℝ) = -Real.logb 2 50 := by
  rw [one_div, Real.logb_inv]

/-- Evaluation of the constructor at `num_items = 1000, fpr = 0.02` (the
example of §8 of the design): the code yields `m = 8127` and `k = 6`. -/
theorem init_1000_002 : init 1000 (1 / 50 : ℝ) 0 =
    some (1 / 50, freshCBF 8127 6) := by
  have hlow := logb50_lower
  have hup := logb50_upper
  simp only [init, if_neg (show ¬(1 / 50 : ℝ) ≤ 0 by norm_num)]
  have hL : (0 : ℝ) ≤ Real.logb 2 50 := by linarith
  have hm : pyint ((1000 : ℤ) * (-1.44 * Real.logb 2 (1 / 50 : ℝ))) = 8127 := by
    rw [logb_inv50]
    have harg : ((1000 : ℤ) : ℝ) * (-1.44 * -Real.logb 2 50) =
        (1440 : ℝ) * Real.logb 2 50 := by
      push_cast
      ring
    rw [harg, pyint_of_nonneg _ (by positivity), floor_1440_logb50]
  have hk : pyint (-Real.logb 2 (1 / 50 : ℝ)) = 5 := by
    rw [logb_inv50, neg_neg, pyint_of_nonneg _ hL, floor_logb50]
  rw [hm, hk, if_pos trivial, if_pos (show (0:ℤ) < 5 by norm_num), logb_inv50,
    neg_neg, pyround_logb50]

/-- Evaluation of the constructor at `num_items = 5, fpr = 0.5, k = 2`:
memory size `int(5 * 1.44 * 1) = 7`, user-supplied `k = 2`. -/
theorem init_5_half_2 : init 5 (1 / 2 : ℝ) 2 = some (1 / 2, demo0) := by
  simp only [init, if_neg (show ¬(1 / 2 : ℝ) ≤ 0 by norm_num), logb_half]
  have hm : pyint ((5 : ℤ) * (-1.44 * (-1 : ℝ))) = 7 := by
    have harg : ((5 : ℤ) : ℝ) * (-1.44 * (-1 : ℝ)) = (7.2 : ℝ) := by norm_num
    rw [harg, pyint_of_nonneg _ (by norm_num)]
    rw [Int.floor_eq_iff]
    norm_num
  rw [hm, if_neg (by norm_num)]
  rfl

/-- Evaluation of the constructor at `fpr = 1`: `log2(1) = 0`, so the memory
size is `0` and the hash table is empty; the default hash count falls back
to `1`. -/
theorem init_100_one : init 100 (1 : ℝ) 0 =
    some (1, ⟨0, 1, [], 0⟩) := by
  simp only [init, if_neg (show ¬(1 : ℝ) ≤ 0 by norm_num), Real.logb_one]
  have hm : pyint ((100 : ℤ) * (-1.44 * (0 : ℝ))) = 0 := by
    have harg : ((100 : ℤ) : ℝ) * (-1.44 * (0 : ℝ)) = 0 := by norm_num
    rw [harg, pyint_of_nonneg _ le_rfl]
    exact Int.floor_zero
  have hk : pyint (-(0 : ℝ)) = 0 := by
    rw [neg_zero, pyint_of_nonneg _ le_rfl]
    exact Int.floor_zero
  rw [hm, hk, if_pos trivial, if_neg (show ¬(0:ℤ) < 0 by norm_num)]
  rfl

/-- Construction fails whenever `fpr ≤ 0`: `np.log2` returns `-inf`/`nan`
and the `int(...)` conversion raises. -/
theorem init_nonpos (num_items num_hash_functions : ℤ) (fpr : ℝ)
    (h : fpr ≤ 0) : init num_items fpr num_hash_functions = none := by
  simp only [init, if_pos h]

/-! ### Further list helpers -/

theorem getD_replicate_zero (n : ℕ) : ∀ j : ℕ,
    (List.replicate n (0 : ℤ)).getD j 0 = 0 := by
  induction n with
  | zero => intro j; simp
  | succ n ih =>
    intro j
    cases j with
    | zero => simp [List.replicate]
    | succ jn =>
      rw [List.replicate, List.getD_cons_succ]
      exact ih jn

theorem list_eq_of_getD : ∀ (l1 l2 : List ℤ), l1.length = l2.length →
    (∀ j : ℕ, l1.getD j 0 = l2.getD j 0) → l1 = l2 := by
  intro l1
  induction l1 with
  | nil =>
    intro l2 hlen _
    cases l2 with
    | nil => rfl
    | cons b t => simp at hlen
  | cons a t ih =>
    intro l2 hlen hval
    cases l2 with
    | nil => simp at hlen
    | cons b u =>
      have h0 := hval 0
      simp at h0
      have ht : t = u := by
        refine ih u (by simpa using hlen) fun j => ?_
        simpa using hval (j + 1)
      rw [h0, ht]

/-! ### Claim theorems -/

namespace CountingBloomFilter

/-- C1: `delete(item)` computes the hash indices, decrements every indexed
counter by 1 (once per occurrence, as in `insert`) only when the membership
check over those indices passes, leaves all counters unchanged when it
fails, and decrements `num_items` unconditionally — so it can become
negative, as on a fresh filter with `m = k = 1`. -/
theorem delete_decrements_only_on_membership (s : CountingBloomFilter)
    (x : List ℕ) (hv : Valid s) :
    ∃ (s2 : CountingBloomFilter) (his : List ℤ),
      s.hash_cbf x = some his ∧ s.delete x = some s2 ∧
      s2.num_items = s.num_items - 1 ∧
      (s.search_hashes his = some false → s2.hash_table = s.hash_table) ∧
      (s.search_hashes his = some true →
        s2.hash_table.length = s.hash_table.length ∧
        ∀ j : ℕ, s2.hash_table.getD j 0 =
          s.hash_table.getD j 0 - countZ (j : ℤ) his) ∧
      delete ⟨1, 1, [0], 0⟩ [] = some ⟨1, 1, [0], -1⟩ := by
  rcases delete_spec s x hv with
    ⟨s2, his, b, hh, hs, hdel, _, _, hn, hfalse, htrue⟩
  refine ⟨s2, his, hh, hdel, hn, ?_, ?_, by decide⟩
  · intro hf
    rw [hs] at hf
    injection hf with hb
    exact hfalse hb
  · intro ht
    rw [hs] at ht
    injection ht with hb
    exact htrue hb

theorem delete_decrements_only_on_membership_witness :
    Valid demo1 ∧
    ∃ (s2 : CountingBloomFilter) (his : List ℤ),
      demo1.hash_cbf [97] = some his ∧ demo1.delete [97] = some s2 ∧
      s2.num_items = demo1.num_items - 1 ∧
      (demo1.search_hashes his = some false →
        s2.hash_table = demo1.hash_table) ∧
      (demo1.search_hashes his = some true →
        s2.hash_table.length = demo1.hash_table.length ∧
        ∀ j : ℕ, s2.hash_table.getD j 0 =
          demo1.hash_table.getD j 0 - countZ (j : ℤ) his) ∧
      delete ⟨1, 1, [0], 0⟩ [] = some ⟨1, 1, [0], -1⟩ :=
  ⟨by decide, delete_decrements_only_on_membership demo1 [97] (by decide)⟩

/-- C2: over-deletion can drive a counter below zero on a freshly
constructed filter: construct with `m = 7, k = 2`, insert `"dc"`
(codes 100, 99), then delete the never-inserted `"a"` (code 97), whose two
hash functions collide on slot 1; the single membership check passes and
slot 1 is decremented twice, reaching `-1`. -/
theorem counter_underflow_reachable :
    init 5 (1 / 2 : ℝ) 2 = some (1 / 2, demo0) ∧
    1 ≤ demo0.memory_size ∧
    demo0.insert [100, 99] = some demo1 ∧
    demo1.delete [97] = some demo2 ∧
    demo2.hash_table.getD 1 0 < 0 :=
  ⟨init_5_half_2, by decide, by decide, by decide, by decide⟩

/-- C6: `str_to_int(item, i)` is exactly the left-to-right fold with radix
`d = 2^(i+1)` described by the design (each step `(acc + (c * d^p)^2) mod m`
starting from 0), every hash index produced lies in `[0, m)` when `m ≥ 1`,
and the empty string hashes to 0 for every hash function. -/
theorem str_to_int_is_radix_fold (s : CountingBloomFilter) (x : List ℕ)
    (i : ℕ) (hm : 1 ≤ s.memory_size) :
    s.str_to_int x i = some (specHash s.memory_size (2 ^ (i + 1)) x) ∧
    (∀ his, s.hash_cbf x = some his →
      ∀ h ∈ his, 0 ≤ h ∧ h < s.memory_size) ∧
    s.str_to_int [] i = some 0 :=
  ⟨strToIntAux_eq_spec s.memory_size (2 ^ (i + 1)) hm x 0 0,
    hash_cbf_range s hm x, rfl⟩

theorem str_to_int_is_radix_fold_witness :
    (1 : ℤ) ≤ demo0.memory_size ∧
    (demo0.str_to_int [97] 0 =
        some (specHash demo0.memory_size (2 ^ (0 + 1)) [97]) ∧
      (∀ his, demo0.hash_cbf [97] = some his →
        ∀ h ∈ his, 0 ≤ h ∧ h < demo0.memory_size) ∧
      demo0.str_to_int [] 0 = some 0) :=
  ⟨by decide, str_to_int_is_radix_fold demo0 [97] 0 (by decide)⟩

/-- C7 counterexample: in the reachable state `demo2` the counter at the
(sole, duplicated) hash index of `"a"` is `-1`, which is not strictly
positive, yet `search("a")` returns `True` — the code tests `!= 0`, not
`> 0`, so `search` is not equivalent to "every indexed counter is strictly
greater than zero". -/
theorem search_true_with_nonpositive_counter :
    demo0.insert [100, 99] = some demo1 ∧
    demo1.delete [97] = some demo2 ∧
    demo2.hash_cbf [97] = some [1, 1] ∧
    demo2.search [97] = some true ∧
    ¬(0 < demo2.hash_table.getD 1 0) :=
  ⟨by decide, by decide, by decide, by decide, by decide⟩

/-- C7 amended: on a valid state, `search(item)` never raises and returns
`True` exactly when every counter at the item's hash indices is nonzero
(so `False` exactly when some indexed counter is zero); in this pure
embedding `search` returns no modified state, reflecting that the method
only reads `hash_table`. -/
theorem search_iff_all_counters_nonzero (s : CountingBloomFilter)
    (x : List ℕ) (hv : Valid s) :
    ∃ his, s.hash_cbf x = some his ∧
      (s.search x = some true ∨ s.search x = some false) ∧
      (s.search x = some true ↔
        ∀ h ∈ his, s.hash_table.getD h.toNat 0 ≠ 0) := by
  obtain ⟨hm, hlen⟩ := hv
  have hh := hash_cbf_eq s hm x
  have hrange := hash_cbf_range s hm x _ hh
  have hrange2 : ∀ h ∈ ((List.range s.num_hash_functions.toNat).map
      fun i => specHash s.memory_size (2 ^ (i + 1)) x),
      0 ≤ h ∧ h < (s.hash_table.length : ℤ) := by
    intro h hmem
    have := hrange h hmem
    omega
  have hspec := searchHashesLoop_spec s.hash_table _ hrange2
  refine ⟨_, hh, ?_, ?_⟩
  · rw [search_eq_loop s x _ hh]
    exact hspec.2
  · rw [search_eq_loop s x _ hh]
    exact hspec.1

theorem search_iff_all_counters_nonzero_witness :
    Valid demo1 ∧
    ∃ his, demo1.hash_cbf [100, 99] = some his ∧
      (demo1.search [100, 99] = some true ∨
        demo1.search [100, 99] = some false) ∧
      (demo1.search [100, 99] = some true ↔
        ∀ h ∈ his, demo1.hash_table.getD h.toNat 0 ≠ 0) :=
  ⟨by decide, search_iff_all_counters_nonzero demo1 [100, 99] (by decide)⟩

end CountingBloomFilter

/-- C3: construction with non-positive `fpr` raises instead of sizing the
filter for the coerced default 0.02: `self.fpr` is coerced but never read,
while the sizing formula uses the raw `fpr`, whose `np.log2` is `-inf`/`nan`;
construction with `fpr = 0.02` itself succeeds. -/
theorem init_crashes_on_nonpositive_fpr :
    init 1000 (0 : ℝ) 0 = none ∧
    init 1000 (-1 : ℝ) 0 = none ∧
    (init 1000 (1 / 50 : ℝ) 0).isSome = true :=
  ⟨init_nonpos 1000 0 0 le_rfl, init_nonpos 1000 0 (-1) (by norm_num),
    by rw [init_1000_002]; rfl⟩

/-- C4 counterexample: errors do surface.  Construction with `fpr = -1`
raises (modelled `none`); construction with `fpr = 1` succeeds but produces
`m = 0`, after which `search` and `insert` of a non-empty item raise
`ZeroDivisionError` (the `% m` in the hash) and `delete` of the empty string
raises `IndexError` (indexing the empty table at 0). -/
theorem construction_error_surfaces :
    init 100 (-1 : ℝ) 0 = none ∧
    init 100 (1 : ℝ) 0 = some (1, ⟨0, 1, [], 0⟩) ∧
    CountingBloomFilter.search ⟨0, 1, [], 0⟩ [97] = none ∧
    CountingBloomFilter.insert ⟨0, 1, [], 0⟩ [97] = none ∧
    CountingBloomFilter.delete ⟨0, 1, [], 0⟩ [] = none :=
  ⟨init_nonpos 100 0 (-1) (by norm_num), init_100_one,
    by decide, by decide, by decide⟩

/-- C4 amended: on any valid state (`m ≥ 1` with a table of `m` slots, as
produced by any non-degenerate construction), `search`, `insert` and
`delete` always complete without raising — including over-deletion; the
degenerate configurations (`fpr ≤ 0`, or `m = 0`) do raise. -/
theorem ops_never_fail_on_valid_state (s : CountingBloomFilter)
    (x : List ℕ) (hv : CountingBloomFilter.Valid s) :
    (s.search x).isSome = true ∧ (s.insert x).isSome = true ∧
    (s.delete x).isSome = true := by
  refine ⟨?_, ?_, ?_⟩
  · obtain ⟨hm, hlen⟩ := hv
    have hh := CountingBloomFilter.hash_cbf_eq s hm x
    have hrange := CountingBloomFilter.hash_cbf_range s hm x _ hh
    have hrange2 : ∀ h ∈ ((List.range s.num_hash_functions.toNat).map
        fun i => CountingBloomFilter.specHash s.memory_size (2 ^ (i + 1)) x),
        0 ≤ h ∧ h < (s.hash_table.length : ℤ) := by
      intro h hmem
      have := hrange h hmem
      omega
    rw [CountingBloomFilter.search_eq_loop s x _ hh]
    rcases (CountingBloomFilter.searchHashesLoop_spec
      s.hash_table _ hrange2).2 with h | h <;> rw [h] <;> rfl
  · rcases CountingBloomFilter.insert_spec s x hv with
      ⟨s2, his, _, hins, _⟩
    rw [hins]
    rfl
  · rcases CountingBloomFilter.delete_spec s x hv with
      ⟨s2, his, b, _, _, hdel, _⟩
    rw [hdel]
    rfl

theorem ops_never_fail_on_valid_state_witness :
    CountingBloomFilter.Valid demo2 ∧
    ((demo2.search [100, 99]).isSome = true ∧
      (demo2.insert [100, 99]).isSome = true ∧
      (demo2.delete [100, 99]).isSome = true) :=
  ⟨by decide, ops_never_fail_on_valid_state demo2 [100, 99] (by decide)⟩

/-- C5 counterexample: `new(num_items=1000, fpr=0.02)` does not yield a
memory size of 8126. -/
theorem memory_size_ne_8126 :
    (init 1000 (1 / 50 : ℝ) 0).map (fun st => st.2.memory_size) ≠
      some 8126 := by
  rw [init_1000_002]
  intro h
  injection h with h2
  exact absurd h2 (by decide)

/-- C5 amended: with the code's sizing formula
`m = int(num_items * -1.44 * log2 fpr)` and default
`k = int(round(-log2 fpr))` (at least 1), the example
`new(num_items=1000, fpr=0.02)` yields `m = 8127` (since
`1440 * log2 50 ≈ 8127.15`) and `k = 6`. -/
theorem init_sizing_8127 :
    init 1000 (1 / 50 : ℝ) 0 = some (1 / 50, freshCBF 8127 6) ∧
    ⌊(1000 : ℝ) * -(1.44 * Real.logb 2 (1 / 50))⌋ = 8127 := by
  refine ⟨init_1000_002, ?_⟩
  have harg : (1000 : ℝ) * -(1.44 * Real.logb 2 (1 / 50)) =
      (1440 : ℝ) * Real.logb 2 50 := by
    rw [logb_inv50]
    ring
  rw [harg, floor_1440_logb50]

namespace CountingBloomFilter

/-- C8: no false negatives under insert-only load — for any sequence of
insertions into a fresh filter with `m ≥ 1`, `k ≥ 1`, and any item `x`
inserted somewhere in the sequence, `search x` on the final state returns
`True`. -/
theorem no_false_negatives_insert_only (m k : ℤ) (hm : 1 ≤ m) (_hk : 1 ≤ k)
    (pre post : List (List ℕ)) (x : List ℕ) (s : CountingBloomFilter)
    (hrun : insertMany (freshCBF m k) (pre ++ x :: post) = some s) :
    s.search x = some true := by
  have hg0 : Good (freshCBF m k) := fresh_good m k hm
  rcases insertMany_good pre (freshCBF m k) hg0 with ⟨mid, hpre, hgmid, hlemid⟩
  rw [insertMany_append, hpre] at hrun
  simp only [Option.some_bind] at hrun
  rcases insert_good mid x hgmid with ⟨s1, hins, hg1, hle1, hcnt⟩
  simp only [insertMany, hins] at hrun
  rcases insertMany_good post s1 hg1 with ⟨t, hpost, hgt, hlet⟩
  rw [hpost] at hrun
  injection hrun with hts
  subst hts
  obtain ⟨hm1, hk1, hlen1, _⟩ := hle1
  obtain ⟨hm2, hk2, hlen2, hmono⟩ := hlet
  have hmmid : 1 ≤ mid.memory_size := hgmid.1.1
  have hh_mid := hash_cbf_eq mid hmmid x
  have hcnt1 := hcnt _ hh_mid
  have hmt : 1 ≤ t.memory_size := hgt.1.1
  have hh_t := hash_cbf_eq t hmt x
  have hmeq : t.memory_size = mid.memory_size := by rw [← hm2, ← hm1]
  have hkeq : t.num_hash_functions = mid.num_hash_functions := by
    rw [← hk2, ← hk1]
  rw [hmeq, hkeq] at hh_t
  rw [search_eq_loop t x _ hh_t]
  have hrange := hash_cbf_range mid hmmid x _ hh_mid
  have hlen_t : (t.hash_table.length : ℤ) = mid.memory_size := by
    have h1 : (t.hash_table.length : ℤ) = t.memory_size := hgt.1.2
    rw [h1, hmeq]
  have hrange2 : ∀ h ∈ ((List.range mid.num_hash_functions.toNat).map
      fun i => specHash mid.memory_size (2 ^ (i + 1)) x),
      0 ≤ h ∧ h < (t.hash_table.length : ℤ) := by
    intro h hmemh
    have := hrange h hmemh
    omega
  refine (searchHashesLoop_spec t.hash_table _ hrange2).1.mpr
    fun h hmemh => ?_
  have h1 := hcnt1 h hmemh
  have h2 := hmono h.toNat
  omega

theorem no_false_negatives_insert_only_witness :
    (1 : ℤ) ≤ 1 ∧
    insertMany (freshCBF 1 1) ([] ++ [97] :: []) =
      some (⟨1, 1, [1], 1⟩ : CountingBloomFilter) ∧
    CountingBloomFilter.search ⟨1, 1, [1], 1⟩ [97] = some true :=
  ⟨le_rfl, by decide, no_false_negatives_insert_only 1 1 le_rfl le_rfl
    [] [] [97] ⟨1, 1, [1], 1⟩ (by decide)⟩

/-- C9: insert/delete round-trip on a singleton — inserting any string into
a fresh filter (all counters zero, `m ≥ 1`, `k ≥ 1`) and then deleting it
restores every counter to zero (the whole table equals its pre-insert
value) and makes `search` return `False`. -/
theorem insert_delete_roundtrip (m k : ℤ) (x : List ℕ)
    (hm : 1 ≤ m) (hk : 1 ≤ k) :
    ∃ s1 s2, (freshCBF m k).insert x = some s1 ∧ s1.delete x = some s2 ∧
      s2.hash_table = (freshCBF m k).hash_table ∧
      s2.num_items = 0 ∧ s2.search x = some false := by
  have hg0 : Good (freshCBF m k) := fresh_good m k hm
  rcases insert_spec (freshCBF m k) x hg0.1 with
    ⟨s1, his, hh0, hins, hmem1, hk1, hn1, hlen1, hrange, hval1⟩
  have hfe := hash_cbf_eq (freshCBF m k) hg0.1.1 x
  rw [hh0] at hfe
  injection hfe with hisF
  have hlenhis : his.length = k.toNat := by
    rw [hisF]
    simp [freshCBF]
  have hfresh0 : ∀ j : ℕ, (freshCBF m k).hash_table.getD j 0 = 0 :=
    fun j => getD_replicate_zero m.toNat j
  have hs1val : ∀ j : ℕ, s1.hash_table.getD j 0 = countZ (j : ℤ) his := by
    intro j
    rw [hval1 j, hfresh0 j]
    omega
  have hflen : (freshCBF m k).hash_table.length = m.toNat := by
    simp [freshCBF]
  have hfm : (freshCBF m k).memory_size = m := rfl
  have hv1 : Valid s1 := by
    constructor
    · omega
    · omega
  rcases delete_spec s1 x hv1 with
    ⟨s2, his2, b, hh1, hs, hdel, hmem2, hk2, hn2, hfalse, htrue⟩
  have hh1e := hash_cbf_eq s1 hv1.1 x
  rw [hmem1, hk1] at hh1e
  have hhis2 : his2 = his := by
    rw [hh1e] at hh1
    injection hh1 with e1
    rw [← e1, hisF]
  have hrangeS1 : ∀ h ∈ his, 0 ≤ h ∧ h < (s1.hash_table.length : ℤ) := by
    intro h hmemh
    have := hrange h hmemh
    omega
  have htrue1 : searchHashesLoop s1.hash_table his = some true := by
    refine (searchHashesLoop_spec s1.hash_table his hrangeS1).1.mpr
      fun h hmemh => ?_
    have h0 : 0 ≤ h := (hrange h hmemh).1
    have hcast : ((h.toNat : ℕ) : ℤ) = h := by omega
    rw [hs1val h.toNat, hcast]
    have := countZ_pos_of_mem h his hmemh
    omega
  have hb : b = true := by
    rw [hhis2] at hs
    have hs2 : searchHashesLoop s1.hash_table his = some b := hs
    rw [htrue1] at hs2
    injection hs2 with hb2
    exact hb2.symm
  subst hb
  obtain ⟨hlen2, hval2⟩ := htrue rfl
  have hs2val : ∀ j : ℕ, s2.hash_table.getD j 0 = 0 := by
    intro j
    rw [hval2 j, hs1val j, hhis2]
    omega
  have hteq : s2.hash_table = (freshCBF m k).hash_table := by
    refine list_eq_of_getD _ _ (by omega) fun j => ?_
    rw [hs2val j, hfresh0 j]
  refine ⟨s1, s2, hins, hdel, hteq, ?_, ?_⟩
  · have hfn : (freshCBF m k).num_items = 0 := rfl
    omega
  · have hv2 : Valid s2 := by
      constructor
      · omega
      · omega
    have hh2e := hash_cbf_eq s2 hv2.1 x
    rw [hmem2, hmem1, hk2, hk1] at hh2e
    rw [← hisF] at hh2e
    rw [search_eq_loop s2 x _ hh2e]
    have hrangeS2 : ∀ h ∈ his, 0 ≤ h ∧ h < (s2.hash_table.length : ℤ) := by
      intro h hmemh
      have := hrange h hmemh
      omega
    have hspec2 := searchHashesLoop_spec s2.hash_table his hrangeS2
    have hne : ∃ hd, hd ∈ his := by
      cases his with
      | nil =>
        exfalso
        simp at hlenhis
        omega
      | cons hd tl => exact ⟨hd, List.mem_cons_self hd tl⟩
    rcases hspec2.2 with hcase | hcase
    · exfalso
      rcases hne with ⟨hd, hdmem⟩
      exact (hspec2.1.mp hcase hd hdmem) (hs2val hd.toNat)
    · exact hcase

theorem insert_delete_roundtrip_witness :
    (1 : ℤ) ≤ 7 ∧ (1 : ℤ) ≤ 2 ∧
    ∃ s1 s2, (freshCBF 7 2).insert [97] = some s1 ∧
      s1.delete [97] = some s2 ∧
      s2.hash_table = (freshCBF 7 2).hash_table ∧
      s2.num_items = 0 ∧ s2.search [97] = some false :=
  ⟨by norm_num, by norm_num,
    insert_delete_roundtrip 7 2 [97] (by norm_num) (by norm_num)⟩

/-- C10: a negative `num_hash_functions` is stored verbatim (only the value
0 triggers the default computation); every item then has an empty hash-index
list, so `search` returns `True` for every string (even on a fresh filter),
while `insert` and `delete` change nothing but the net item counter. -/
theorem negative_num_hash_functions (n nhf : ℤ) (fpr : ℝ)
    (s : CountingBloomFilter) (x : List ℕ)
    (hfpr : 0 < fpr) (hneg : nhf < 0) (hs : s.num_hash_functions < 0) :
    (∃ st, init n fpr nhf = some st ∧ st.2.num_hash_functions = nhf) ∧
    s.hash_cbf x = some [] ∧
    s.search x = some true ∧
    s.insert x = some { s with num_items := s.num_items + 1 } ∧
    s.delete x = some { s with num_items := s.num_items - 1 } := by
  have hk0 : s.num_hash_functions.toNat = 0 := by omega
  have hh : s.hash_cbf x = some [] := by
    unfold hash_cbf
    rw [hk0]
    rfl
  refine ⟨?_, hh, ?_, ?_, ?_⟩
  · refine ⟨(fpr, freshCBF (pyint ((n : ℝ) * (-1.44 * Real.logb 2 fpr))) nhf),
      ?_, rfl⟩
    simp only [init, if_neg (not_le.mpr hfpr), if_neg (by omega : ¬nhf = 0)]
  · simp [search, hh, search_hashes, searchHashesLoop]
  · simp [insert, hh, bumpLoop]
  · simp [delete, hh, search_hashes, searchHashesLoop, bumpLoop]

theorem negative_num_hash_functions_witness :
    (0 : ℝ) < 1 / 2 ∧ (-1 : ℤ) < 0 ∧
    (⟨1, -1, [0], 0⟩ : CountingBloomFilter).num_hash_functions < 0 ∧
    ((∃ st, init 1 (1 / 2 : ℝ) (-1) = some st ∧
        st.2.num_hash_functions = -1) ∧
      CountingBloomFilter.hash_cbf ⟨1, -1, [0], 0⟩ [97] = some [] ∧
      CountingBloomFilter.search ⟨1, -1, [0], 0⟩ [97] = some true ∧
      CountingBloomFilter.insert ⟨1, -1, [0], 0⟩ [97] =
        some { (⟨1, -1, [0], 0⟩ : CountingBloomFilter) with
          num_items := (⟨1, -1, [0], 0⟩ : CountingBloomFilter).num_items + 1 } ∧
      CountingBloomFilter.delete ⟨1, -1, [0], 0⟩ [97] =
        some { (⟨1, -1, [0], 0⟩ : CountingBloomFilter) with
          num_items := (⟨1, -1, [0], 0⟩ : CountingBloomFilter).num_items - 1 }) :=
  ⟨by norm_num, by norm_num, by decide,
    negative_num_hash_functions 1 (-1) (1 / 2) ⟨1, -1, [0], 0⟩ [97]
      (by norm_num) (by norm_num) (by decide)⟩

end CountingBloomFilter
